import Mathlib

deriving instance DecidableEq for Except

/-!
Verification of the linera-protocol sources against their specification.

The development shallowly embeds three source files:
* `linera-client/src/benchmark.rs` (histogram diffing, quantile estimation,
  validator health checks, BPS pacing and share distribution),
* `linera-core/src/unit_tests/test_utils.rs` (faulty local validators,
  `read_confirmed_blocks_downward`, `TestBuilder::add_root_chain`),
* `linera-service/src/server.rs` (`generate_shard_configs`).

`f64` values are modelled exactly by the type `FP` below: a fraction (an
integer numerator over a natural denominator, compared by
cross-multiplication), one of the two infinities, or NaN.  The arithmetic
operations used by the embedded code (`+`, `-`, `*`, `/`, `abs`, `ceil`,
`max`, comparisons) follow IEEE-754 semantics for the special values;
arithmetic on finite values is exact (the embedded code only relies on
order and sign properties of the computed latencies, never on rounding).
-/

/-- An exact fraction: `num / den`.  All fractions built by the embedded
code have a positive denominator; operations keep the denominator positive
(division is guarded against zero divisors before it is applied). -/
structure Frac where
  num : Int
  den : Nat
deriving DecidableEq, Repr

namespace Frac

/-- The integer `n` as a fraction. -/
def ofInt (n : Int) : Frac := ⟨n, 1⟩

/-- Value equality by cross-multiplication. -/
def beq (a b : Frac) : Bool := a.num * b.den == b.num * a.den

/-- Strict order by cross-multiplication (denominators are positive). -/
def blt (a b : Frac) : Bool := a.num * b.den < b.num * a.den

/-- Negation. -/
def neg (a : Frac) : Frac := ⟨-a.num, a.den⟩

/-- Exact addition. -/
def add (a b : Frac) : Frac := ⟨a.num * b.den + b.num * a.den, a.den * b.den⟩

/-- Exact multiplication. -/
def mul (a b : Frac) : Frac := ⟨a.num * b.num, a.den * b.den⟩

/-- Exact division; callers guard against `b.num = 0`. -/
def div (a b : Frac) : Frac :=
  if b.num < 0 then ⟨-(a.num * b.den), a.den * b.num.natAbs⟩
  else ⟨a.num * b.den, a.den * b.num.natAbs⟩

/-- Absolute value. -/
def fabs (a : Frac) : Frac := ⟨(a.num.natAbs : Int), a.den⟩

/-- Ceiling (for a positive denominator). -/
def ceil (a : Frac) : Int := Int.fdiv (a.num + a.den - 1) a.den

end Frac

/-- Model of an `f64` value: NaN, +infinity, -infinity, or a finite value. -/
inductive FP where
  | nan : FP
  | inf : FP
  | ninf : FP
  | fin : Frac → FP
deriving DecidableEq, Repr

namespace FP

/-- The integer `n` as an `FP` value. -/
def ofInt (n : Int) : FP := fin (Frac.ofInt n)

/-- IEEE equality (`==` on `f64`): NaN compares unequal to everything,
including itself.  Signed zeros are identified in this model. -/
def beq : FP → FP → Bool
  | fin a, fin b => Frac.beq a b
  | inf, inf => true
  | ninf, ninf => true
  | _, _ => false

/-- IEEE strict order (`<` on `f64`): any comparison with NaN is false. -/
def flt : FP → FP → Bool
  | nan, _ => false
  | _, nan => false
  | ninf, ninf => false
  | ninf, _ => true
  | fin _, ninf => false
  | fin a, fin b => Frac.blt a b
  | fin _, inf => true
  | inf, _ => false

/-- IEEE `<=` on `f64`. -/
def fle (a b : FP) : Bool := flt a b || beq a b

/-- IEEE `>` on `f64`. -/
def fgt (a b : FP) : Bool := flt b a

/-- IEEE `>=` on `f64`. -/
def fge (a b : FP) : Bool := fle b a

/-- IEEE negation. -/
def neg : FP → FP
  | nan => nan
  | inf => ninf
  | ninf => inf
  | fin a => fin (Frac.neg a)

/-- IEEE addition: NaN propagates, opposite infinities give NaN, finite
addition is exact. -/
def add : FP → FP → FP
  | nan, _ => nan
  | _, nan => nan
  | inf, ninf => nan
  | ninf, inf => nan
  | inf, _ => inf
  | _, inf => inf
  | ninf, _ => ninf
  | _, ninf => ninf
  | fin a, fin b => fin (Frac.add a b)

/-- IEEE subtraction (`a - b = a + (-b)`); in particular `inf - inf = NaN`. -/
def sub (a b : FP) : FP := add a (neg b)

/-- IEEE multiplication: NaN propagates, `inf * 0 = NaN`, signs as usual. -/
def mul : FP → FP → FP
  | nan, _ => nan
  | _, nan => nan
  | fin a, fin b => fin (Frac.mul a b)
  | inf, fin b => if b.num = 0 then nan else if 0 < b.num then inf else ninf
  | fin a, inf => if a.num = 0 then nan else if 0 < a.num then inf else ninf
  | ninf, fin b => if b.num = 0 then nan else if 0 < b.num then ninf else inf
  | fin a, ninf => if a.num = 0 then nan else if 0 < a.num then ninf else inf
  | inf, inf => inf
  | inf, ninf => ninf
  | ninf, inf => ninf
  | ninf, ninf => inf

/-- IEEE division restricted to the cases this model distinguishes (signed
zeros are identified, so `x / 0` takes the sign of `x`). -/
def div : FP → FP → FP
  | nan, _ => nan
  | _, nan => nan
  | fin a, fin b =>
      if b.num = 0 then (if a.num = 0 then nan else if 0 < a.num then inf else ninf)
      else fin (Frac.div a b)
  | inf, fin b => if 0 ≤ b.num then inf else ninf
  | ninf, fin b => if 0 ≤ b.num then ninf else inf
  | fin _, inf => fin (Frac.ofInt 0)
  | fin _, ninf => fin (Frac.ofInt 0)
  | inf, inf => nan
  | inf, ninf => nan
  | ninf, inf => nan
  | ninf, ninf => nan

/-- Rounding `f64::ceil`. -/
def fceil : FP → FP
  | nan => nan
  | inf => inf
  | ninf => ninf
  | fin a => fin (Frac.ofInt (Frac.ceil a))

/-- Magnitude `f64::abs`. -/
def fabs : FP → FP
  | nan => nan
  | inf => inf
  | ninf => inf
  | fin a => fin (Frac.fabs a)

/-- Maximum `f64::max`: if one operand is NaN, the other is returned. -/
def fmax : FP → FP → FP
  | nan, b => b
  | a, nan => a
  | a, b => if flt a b then b else a

end FP

/-- Constant `f64::EPSILON` = 2⁻⁵². -/
def f64_EPSILON : FP := .fin ⟨1, 2 ^ 52⟩

/-- Constant `PROXY_LATENCY_P99_THRESHOLD` from `benchmark.rs`. -/
def PROXY_LATENCY_P99_THRESHOLD : FP := .ofInt 400

/-- The quantile argument `0.99` passed by `validators_healthy`. -/
def quantile99 : FP := .fin ⟨99, 100⟩

/-- The variants of `BenchmarkError` (from `benchmark.rs`) reachable in the
embedded pure fragment. -/
inductive BenchmarkError where
  | HistogramCountMismatch : BenchmarkError
  | CouldNotComputeQuantile : BenchmarkError
  | BucketBoundariesDoNotMatch : FP → FP → BenchmarkError
  | NoDataYetForP99Calculation : BenchmarkError
  | UnexpectedEmptyBucket : BenchmarkError
deriving DecidableEq, Repr

/-- Bucket entry `prometheus_parse::HistogramCount`: one cumulative histogram bucket with
its upper boundary. -/
structure HistogramCount where
  less_than : FP
  count : FP
deriving DecidableEq, Repr

/-- Structure `HistogramSnapshot` from `benchmark.rs`. -/
structure HistogramSnapshot where
  buckets : List HistogramCount
  count : FP
  sum : FP
deriving DecidableEq, Repr

/-- The bucket walk of `Benchmark::compute_quantile` (the `for` loop over
`buckets` carrying `prev_cumulative` and `prev_bound`). -/
def quantileLoop (target : FP) :
    List HistogramCount → FP → FP → Except BenchmarkError FP
  | [], _, _ => .error .CouldNotComputeQuantile
  | bucket :: rest, prev_cumulative, prev_bound =>
      if FP.fge bucket.count target then
        let bucket_count := FP.sub bucket.count prev_cumulative
        if FP.beq bucket_count (.ofInt 0) then
          .error .UnexpectedEmptyBucket
        else
          let fraction := FP.div (FP.sub target prev_cumulative) bucket_count
          .ok (FP.add prev_bound (FP.mul (FP.sub bucket.less_than prev_bound) fraction))
      else
        quantileLoop target rest bucket.count bucket.less_than

/-- Function `Benchmark::compute_quantile` from `benchmark.rs`. -/
def compute_quantile (buckets : List HistogramCount) (total_count quantile : FP) :
    Except BenchmarkError FP :=
  if FP.beq total_count (.ofInt 0) then
    .error .NoDataYetForP99Calculation
  else
    let target := FP.fceil (FP.mul quantile total_count)
    quantileLoop target buckets (.ofInt 0) (.ofInt 0)

/-- The bucket loop of `Benchmark::diff_histograms`: walk the zipped bucket
lists, aborting at the first boundary mismatch, otherwise clamping each
pointwise difference at zero. -/
def diffBuckets : List HistogramCount → List HistogramCount →
    Except BenchmarkError (List HistogramCount)
  | before :: before_rest, after :: after_rest =>
      if FP.fgt (FP.fabs (FP.sub before.less_than after.less_than)) f64_EPSILON then
        .error (.BucketBoundariesDoNotMatch before.less_than after.less_than)
      else
        match diffBuckets before_rest after_rest with
        | .error e => .error e
        | .ok rest =>
            .ok ({ less_than := after.less_than,
                   count := FP.fmax (FP.sub after.count before.count) (.ofInt 0) } :: rest)
  | _, _ => .ok []

/-- Function `Benchmark::diff_histograms` from `benchmark.rs`. -/
def diff_histograms (previous current : HistogramSnapshot) :
    Except BenchmarkError HistogramSnapshot :=
  if FP.flt current.count previous.count then
    .error .HistogramCountMismatch
  else
    let total_diff := FP.sub current.count previous.count
    match diffBuckets previous.buckets current.buckets with
    | .error e => .error e
    | .ok buckets_diff =>
        .ok { buckets := buckets_diff,
              count := total_diff,
              sum := FP.sub current.sum previous.sum }

/-- Outcome of the per-validator body of `Benchmark::validators_healthy`. -/
inductive HealthStep where
  | healthy : HealthStep
  | unhealthy : HealthStep
  | skip : HealthStep
  | errorOut : BenchmarkError → HealthStep
deriving DecidableEq, Repr

/-- The per-validator body of `Benchmark::validators_healthy`: diff the
snapshots, compute the interval p99, skip the interval on
`NoDataYetForP99Calculation`, propagate other errors, and report unhealthy
when the p99 exceeds `PROXY_LATENCY_P99_THRESHOLD`.  `none` models the panic
of the unguarded indexing `diff.buckets[diff.buckets.len() - 2]`, which is
evaluated (for logging) as soon as the p99 has been computed. -/
def validatorHealthy (previous current : HistogramSnapshot) : Option HealthStep :=
  match diff_histograms previous current with
  | .error e => some (.errorOut e)
  | .ok diffv =>
      match compute_quantile diffv.buckets diffv.count quantile99 with
      | .error .NoDataYetForP99Calculation => some .skip
      | .error e => some (.errorOut e)
      | .ok p99 =>
          if diffv.buckets.length < 2 then none
          else if FP.fgt p99 PROXY_LATENCY_P99_THRESHOLD then some .unhealthy
          else some .healthy

/-- The value of the loop variable `prev_cumulative` of `compute_quantile`
after the loop has walked a whole list of buckets (`d` is its value before). -/
def lastCount : List HistogramCount → FP → FP
  | [], d => d
  | bucket :: rest, _ => lastCount rest bucket.count

/-- The value of the loop variable `prev_bound` of `compute_quantile`
after the loop has walked a whole list of buckets (`d` is its value before). -/
def lastBound : List HistogramCount → FP → FP
  | [], d => d
  | bucket :: rest, _ => lastBound rest bucket.less_than

/-- The "previous" snapshot of spec scenario 5:
buckets `[(10, 100), (100, 150), (+inf, 200)]`. -/
def benchPrevSnapshot : HistogramSnapshot :=
  { buckets := [⟨.ofInt 10, .ofInt 100⟩, ⟨.ofInt 100, .ofInt 150⟩, ⟨.inf, .ofInt 200⟩],
    count := .ofInt 200,
    sum := .ofInt 1000 }

/-- The "current" snapshot of spec scenario 5:
buckets `[(10, 100), (100, 155), (+inf, 260)]`. -/
def benchCurSnapshot : HistogramSnapshot :=
  { buckets := [⟨.ofInt 10, .ofInt 100⟩, ⟨.ofInt 100, .ofInt 155⟩, ⟨.inf, .ofInt 260⟩],
    count := .ofInt 260,
    sum := .ofInt 2000 }

/-- The histogram diff of spec scenario 5, as computed by `diff_histograms`. -/
def benchDiffSnapshot : HistogramSnapshot :=
  { buckets := [⟨.ofInt 10, .ofInt 0⟩, ⟨.ofInt 100, .ofInt 5⟩, ⟨.inf, .ofInt 60⟩],
    count := .ofInt 60,
    sum := .ofInt 1000 }

/-- The per-chain-group share computation of `Benchmark::run_benchmark`:
the group loop carries `bps_remainder`, handing `bps_initial_share + 1` to a
group while the remainder is positive and `bps_initial_share` afterwards. -/
def bpsSharesGo (bps_initial_share : ℕ) : ℕ → ℕ → List ℕ
  | _, 0 => []
  | bps_remainder, k + 1 =>
      if 0 < bps_remainder then
        (bps_initial_share + 1) :: bpsSharesGo bps_initial_share (bps_remainder - 1) k
      else
        bps_initial_share :: bpsSharesGo bps_initial_share bps_remainder k

/-- The list of `bps_share` values assigned to the chain groups by
`Benchmark::run_benchmark` (`bps_initial_share = bps / num_chain_groups`,
`bps_remainder = bps % num_chain_groups`). -/
def bpsShares (bps num_chain_groups : ℕ) : List ℕ :=
  bpsSharesGo (bps / num_chain_groups) (bps % num_chain_groups) num_chain_groups

/-- State of one chain group's producer task in the pacing model of
`run_benchmark_internal` / `bps_control_task`:
`count` is the group's `AtomicUsize` (`bps_count`), `submitted` is a ghost
counter of blocks whose submission completed in the current one-second
window, `waiting` means the producer is parked on `notifier.notified()`,
and `inFlight` means a block submission has completed but the producer has
not yet executed its `fetch_add`. -/
structure GroupState where
  count : ℕ
  submitted : ℕ
  waiting : Bool
  inFlight : Bool
deriving DecidableEq, Repr

/-- A producer that has not yet submitted anything in this window. -/
def initGroup : GroupState := { count := 0, submitted := 0, waiting := false, inFlight := false }

/-- Interleaving semantics of the BPS pacing loop, indexed by the per-group
`bps_share` list:
* `submit`: a producer that is neither waiting nor mid-iteration completes
  one block submission (`submit_fast_block_proposal` returning);
* `incr`: the producer then executes `bps_count.fetch_add(1)` and parks on
  the notifier when the new count has reached its share
  (`current_bps_count >= bps` in the source);
* `tick`: the pacing task's one-second tick swaps every counter to zero and
  `notify_waiters()` releases every parked producer; a new window starts,
  so the ghost `submitted` counters are reset. -/
inductive BenchStep (shares : List ℕ) : List GroupState → List GroupState → Prop where
  | submit (g : ℕ) (st : List GroupState) (gs : GroupState) :
      st.get? g = some gs → gs.waiting = false → gs.inFlight = false →
      BenchStep shares st
        (st.set g { gs with submitted := gs.submitted + 1, inFlight := true })
  | incr (g : ℕ) (st : List GroupState) (gs : GroupState) (share : ℕ) :
      st.get? g = some gs → shares.get? g = some share → gs.inFlight = true →
      BenchStep shares st
        (st.set g { gs with count := gs.count + 1, inFlight := false,
                            waiting := decide (share ≤ gs.count + 1) })
  | tick (st : List GroupState) :
      BenchStep shares st
        (st.map fun gs => { gs with count := 0, submitted := 0, waiting := false })

/-- Reachability in the pacing model. -/
def benchReachable (shares : List ℕ) : List GroupState → List GroupState → Prop :=
  Relation.ReflTransGen (BenchStep shares)

/-- The initial pacing state: all `num_chain_groups` producers idle at the
start of a window. -/
def initBench (num_chain_groups : ℕ) : List GroupState :=
  List.replicate num_chain_groups initGroup

/-- Inductive invariant of one group's pacing state. -/
def groupInv (share : ℕ) (gs : GroupState) : Prop :=
  gs.submitted ≤ gs.count + (if gs.inFlight then 1 else 0) ∧
  (gs.waiting = false → gs.count < share ∨ gs.count = 0) ∧
  (gs.inFlight = true → gs.count < share ∨ gs.count = 0) ∧
  (gs.inFlight = false → gs.count ≤ max share 1)

/-- Inductive invariant of the whole pacing state. -/
def benchInv (shares : List ℕ) (st : List GroupState) : Prop :=
  st.length = shares.length ∧
  ∀ g gs share, st.get? g = some gs → shares.get? g = some share → groupInv share gs

/-- A confirmed block as seen by `read_confirmed_blocks_downward`: its
header's optional previous-block hash, plus an abstract payload.  Hashes
are modelled as naturals. -/
structure BlockM where
  previous_block_hash : Option ℕ
  payload : ℕ
deriving DecidableEq, Repr

/-- The `for _ in 0..limit` loop of
`ChainClient::read_confirmed_blocks_downward`: follow the optional hash,
read each certificate from the store (`.error h` models the `?` on a failed
`read_confirmed_block(h)`), and march down the previous-hash links. -/
def rcbdLoop (store : ℕ → Option BlockM) : ℕ → Option ℕ → Except ℕ (List BlockM)
  | 0, _ => .ok []
  | _ + 1, none => .ok []
  | k + 1, some h =>
      match store h with
      | none => .error h
      | some value =>
          match rcbdLoop store k value.previous_block_hash with
          | .error e => .error e
          | .ok rest => .ok (value :: rest)

/-- Function `ChainClient::read_confirmed_blocks_downward` from `test_utils.rs`. -/
def read_confirmed_blocks_downward (store : ℕ → Option BlockM) (start : ℕ) (limit : ℕ) :
    Except ℕ (List BlockM) :=
  rcbdLoop store limit (some start)

/-- Predicate: `l` is a walk of the store: the first block is the
one stored under the starting hash and every later block is the one stored
under its predecessor's previous-block hash. -/
inductive WalkOk (store : ℕ → Option BlockM) : Option ℕ → List BlockM → Prop where
  | nil (h? : Option ℕ) : WalkOk store h? []
  | cons (h : ℕ) (value : BlockM) (rest : List BlockM) :
      store h = some value → WalkOk store value.previous_block_hash rest →
      WalkOk store (some h) (value :: rest)

/-- Enumeration `FaultType` from `test_utils.rs`. -/
inductive FaultType where
  | Honest
  | Offline
  | OfflineWithInfo
  | Malicious
  | DontSendConfirmVote
  | DontProcessValidated
  | DontSendValidateVote
deriving DecidableEq, Repr

/-- Enumeration `CertificateKind` (the values of `T::KIND` for processable certificates). -/
inductive CertificateKind where
  | Timeout
  | Validated
  | Confirmed
deriving DecidableEq, Repr

/-- The `NodeError` variants produced or inspected by the embedded
`test_utils.rs` code; `Other` stands for every remaining variant a worker
may return. -/
inductive NodeError where
  | ClientIoError (error : String)
  | BlobsNotFound (ids : List ℕ)
  | ArithmeticOverflow
  | Other (code : ℕ)
deriving DecidableEq, Repr

/-- Function `LocalValidatorClient::handle_block_proposal` (the static helper): for
the fault types that drop proposals the worker is not invoked (`None`, state
untouched); otherwise the worker runs and its result is wrapped in `Some`.
The worker `WorkerState::handle_block_proposal` is abstracted as a state
transformer returning a response/actions pair or an error. -/
def handle_block_proposal {σ R A : Type} (ft : FaultType)
    (worker : σ → (Except NodeError (R × A)) × σ) (s : σ) :
    Option (Except NodeError (R × A)) × σ :=
  match ft with
  | .Offline | .OfflineWithInfo | .Malicious => (none, s)
  | .Honest | .DontSendConfirmVote | .DontProcessValidated | .DontSendValidateVote =>
      let (r, s') := worker s
      (some r, s')

/-- Function `LocalValidatorClient::do_handle_block_proposal`: a `BlobsNotFound`
worker error is forwarded verbatim; otherwise the response is the
fault-type-specific substitute (or the worker result for honest-like
faults).  A `none` result models the unreachable
`.expect("handle_block_proposal_result should be Some")` panic; the final
map drops the `NetworkActions` component, as `sender.send(result.map(...))`
does. -/
def do_handle_block_proposal {σ R A : Type} (ft : FaultType)
    (worker : σ → (Except NodeError (R × A)) × σ) (s : σ) :
    Option ((Except NodeError R) × σ) :=
  let step := handle_block_proposal ft worker s
  let result : Option (Except NodeError (R × A)) :=
    match step.1 with
    | some (.error (.BlobsNotFound ids)) => some (.error (.BlobsNotFound ids))
    | _ =>
        match ft with
        | .Offline | .OfflineWithInfo => some (.error (.ClientIoError "offline"))
        | .Malicious => some (.error .ArithmeticOverflow)
        | .DontSendValidateVote => some (.error (.ClientIoError "refusing to validate"))
        | .Honest | .DontSendConfirmVote | .DontProcessValidated => step.1
  result.map fun r => (r.map Prod.fst, step.2)

/-- Function `LocalValidatorClient::handle_certificate` (the static helper): the
worker (`fully_handle_certificate_with_notifications`) is skipped for
`DontProcessValidated` on validated certificates and for the offline fault
types. -/
def handle_certificate {σ R : Type} (ft : FaultType) (kind : CertificateKind)
    (worker : σ → (Except NodeError R) × σ) (s : σ) :
    Option (Except NodeError R) × σ :=
  match ft, kind with
  | .DontProcessValidated, .Validated => (none, s)
  | .Honest, _ | .DontSendConfirmVote, _ | .Malicious, _
  | .DontProcessValidated, _ | .DontSendValidateVote, _ =>
      let (r, s') := worker s
      (some r, s')
  | .Offline, _ | .OfflineWithInfo, _ => (none, s)

/-- Function `LocalValidatorClient::do_handle_certificate_internal`: a
`BlobsNotFound` worker error is forwarded verbatim; otherwise
vote-withholding faults replace a validated-certificate response by a
"refusing to confirm" error, offline faults answer "offline", and the
remaining faults forward the worker result (`none` models the unreachable
`.expect` panic). -/
def do_handle_certificate_internal {σ R : Type} (ft : FaultType) (kind : CertificateKind)
    (worker : σ → (Except NodeError R) × σ) (s : σ) :
    Option ((Except NodeError R) × σ) :=
  let step := handle_certificate ft kind worker s
  let result : Option (Except NodeError R) :=
    match step.1 with
    | some (.error (.BlobsNotFound ids)) => some (.error (.BlobsNotFound ids))
    | _ =>
        match ft, kind with
        | .DontSendConfirmVote, .Validated | .DontProcessValidated, .Validated =>
            some (.error (.ClientIoError "refusing to confirm"))
        | .Honest, _ | .DontSendConfirmVote, _ | .DontProcessValidated, _
        | .Malicious, _ | .DontSendValidateVote, _ => step.1
        | .Offline, _ | .OfflineWithInfo, _ => some (.error (.ClientIoError "offline"))
  result.map fun r => (r, step.2)

/-- Function `LocalValidatorClient::do_handle_chain_info_query`: only the `Offline`
fault type refuses info queries; every other fault type runs the worker
query handler and returns its response (dropping the actions). -/
def do_handle_chain_info_query {σ R A : Type} (ft : FaultType)
    (worker : σ → (Except NodeError (R × A)) × σ) (s : σ) :
    (Except NodeError R) × σ :=
  if ft = .Offline then (.error (.ClientIoError "offline"), s)
  else
    let (r, s') := worker s
    (r.map Prod.fst, s')

/-- Modelled from the spec: the quorum driver's fault-handling table
("Offline / OfflineWithInfo: count as silent / treat proposals as silent",
"Network timeout: treated as silent validator").  The driver itself is not
part of the provided sources; per the spec it treats a client-I/O error
response as a silent validator. -/
def driverTreatsAsSilent : NodeError → Bool
  | .ClientIoError _ => true
  | _ => false

/-- Fault types for which `handle_block_proposal` actually invokes the
wrapped worker (read off the first match of the static helper). -/
def proposalInvokesWorker : FaultType → Bool
  | .Offline | .OfflineWithInfo | .Malicious => false
  | _ => true

/-- Fault/kind combinations for which `handle_certificate` actually invokes
the wrapped worker (read off the match of the static helper). -/
def certificateInvokesWorker : FaultType → CertificateKind → Bool
  | .DontProcessValidated, .Validated => false
  | .Offline, _ => false
  | .OfflineWithInfo, _ => false
  | _, _ => true

/-- Structure `InitialChainConfig` (the fields set by `TestBuilder::add_root_chain`);
ownership, permissions and amounts are abstracted as naturals. -/
structure InitialChainConfig where
  ownership : ℕ
  epoch : ℕ
  min_active_epoch : ℕ
  max_active_epoch : ℕ
  balance : ℕ
  application_permissions : ℕ
deriving DecidableEq, Repr

/-- Structure built by `ChainDescription::new(origin, config, timestamp)` with
`ChainOrigin::Root(index)` abstracted as the index. -/
structure ChainDescription where
  origin : ℕ
  config : InitialChainConfig
  timestamp : ℕ
deriving DecidableEq, Repr

/-- The `ChainDescription` built by `TestBuilder::add_root_chain`:
single ownership by the fresh key, epochs 0, the requested balance, default
application permissions, timestamp 0. -/
def add_root_chain_description (index public_key balance : ℕ) : ChainDescription :=
  { origin := index,
    config := { ownership := public_key, epoch := 0, min_active_epoch := 0,
                max_active_epoch := 0, balance := balance,
                application_permissions := 0 },
    timestamp := 0 }

/-- The description `add_root_chain` passes to `storage.create_chain` for
one validator: for a `Malicious` validator the config is cloned with
`balance: Amount::ZERO` and the timestamp rebuilt from 0; every other
validator receives the description unchanged. -/
def validatorCreatedDescription (ft : FaultType) (description : ChainDescription) :
    ChainDescription :=
  if ft = .Malicious then
    { origin := description.origin,
      config := { description.config with balance := 0 },
      timestamp := 0 }
  else description

/-- The descriptions created in the validators' storages by the
per-validator loop of `add_root_chain`. -/
def add_root_chain_validator_descriptions (validators : List FaultType)
    (description : ChainDescription) : List ChainDescription :=
  validators.map fun ft => validatorCreatedDescription ft description

/-- The descriptions created in the chain-client storages by the second
loop of `add_root_chain`. -/
def add_root_chain_client_descriptions (numClients : ℕ)
    (description : ChainDescription) : List ChainDescription :=
  List.replicate numClients description

/-- The digit-accumulation loop of Rust's unsigned integer `parse`. -/
def parseDigitsLoop : List Char → ℕ → Option ℕ
  | [], acc => some acc
  | c :: rest, acc =>
      if c.isDigit then parseDigitsLoop rest (acc * 10 + (c.toNat - 48)) else none

/-- Rust's `str::parse` for unsigned integers (an optional `+` sign
followed by at least one decimal digit); no width bound yet. -/
def parseRustNat : List Char → Option ℕ
  | [] => none
  | '+' :: rest => if rest.isEmpty then none else parseDigitsLoop rest 0
  | l => parseDigitsLoop l 0

/-- Rust `str::parse::<NonZeroU16>`: value in `1..=65535`. -/
def parseNonZeroU16 (s : List Char) : Option ℕ :=
  match parseRustNat s with
  | some v => if 1 ≤ v ∧ v ≤ 65535 then some v else none
  | none => none

/-- Rust `str::parse::<u16>`: value in `0..=65535`. -/
def parseU16 (s : List Char) : Option ℕ :=
  match parseRustNat s with
  | some v => if v ≤ 65535 then some v else none
  | none => none

/-- Rust's `str::replacen(pat, rep, 1)`: replace the first occurrence of
`pat` (if any) by `rep`. -/
def replaceFirst : List Char → List Char → List Char → List Char
  | [], _, _ => []
  | c :: rest, pat, rep =>
      if pat.isPrefixOf (c :: rest) then rep ++ (c :: rest).drop pat.length
      else c :: replaceFirst rest pat rep

/-- Rust's `format!("{i:0len$}")`: the decimal digits of `i`, left-padded
with zeros to width `len`. -/
def formatPadded (i len : ℕ) : List Char :=
  let digits := Nat.toDigits 10 i
  List.replicate (len - digits.length) '0' ++ digits

/-- Structure `linera_rpc::config::ShardConfig` as built by `generate_shard_configs`. -/
structure ShardConfig where
  host : List Char
  port : ℕ
  metrics_port : Option ℕ
deriving DecidableEq, Repr

/-- The three `anyhow` error contexts `generate_shard_configs` can attach. -/
inductive GenerateShardError where
  | numShardsParse
  | portParse
  | metricsPortParse
deriving DecidableEq, Repr

/-- One iteration of the `for i in 1u16..=num_shards` loop of
`generate_shard_configs`: substitute the zero-padded index for the first
occurrence of the `%` pattern in the host, port and metrics-port templates
and parse the two port strings. -/
def shardConfigFor (pat host port : List Char) (metrics_port : Option (List Char))
    (len i : ℕ) : Except GenerateShardError ShardConfig :=
  let index := formatPadded i len
  let host' := replaceFirst host pat index
  match parseU16 (replaceFirst port pat index) with
  | none => .error .portParse
  | some p =>
      match metrics_port with
      | none => .ok { host := host', port := p, metrics_port := none }
      | some mp =>
          match parseU16 (replaceFirst mp pat index) with
          | none => .error .metricsPortParse
          | some m => .ok { host := host', port := p, metrics_port := some m }

/-- Function `generate_shard_configs` from `server.rs`: parse `num_shards` as a
`NonZeroU16` (its textual length `len` fixes the `%` pattern), then build
one config per shard index `1..=num_shards`, aborting on the first port
that fails to parse. -/
def generate_shard_configs (num_shards host port : List Char)
    (metrics_port : Option (List Char)) : Except GenerateShardError (List ShardConfig) :=
  let len := num_shards.length
  match parseNonZeroU16 num_shards with
  | none => .error .numShardsParse
  | some n =>
      (List.range' 1 n).mapM (shardConfigFor (List.replicate len '%') host port metrics_port len)

/-! ## Helper lemmas -/

theorem FP.mul_comm (a b : FP) : FP.mul a b = FP.mul b a := by
  cases a <;> cases b <;>
    simp [FP.mul, Frac.mul, Int.mul_comm, Nat.mul_comm]

theorem quantileLoop_walk_pre (target : FP) (pre : List HistogramCount) :
    ∀ (rest : List HistogramCount) (prevC prevB : FP),
      (∀ x ∈ pre, FP.fge x.count target = false) →
      quantileLoop target (pre ++ rest) prevC prevB =
        quantileLoop target rest (lastCount pre prevC) (lastBound pre prevB) := by
  induction pre with
  | nil => intro rest prevC prevB _; rfl
  | cons x xs ih =>
      intro rest prevC prevB h
      have hx : FP.fge x.count target = false := h x (by simp)
      have hxs : ∀ y ∈ xs, FP.fge y.count target = false := fun y hy => h y (by simp [hy])
      simp only [List.cons_append, quantileLoop, hx, Bool.false_eq_true, if_false]
      exact ih rest x.count x.less_than hxs

/-- C1: `compute_quantile` returns `NoDataYetForP99Calculation` when the
total diff count is zero; otherwise, with `target = ceil(quantile * total)`,
in the first bucket whose cumulative count reaches `target` it returns the
linear interpolation
`prev_bound + (target - prev_cum) / bucket_own_count * (bucket.upper - prev_bound)`,
or `UnexpectedEmptyBucket` when that bucket's own count is zero. -/
theorem C1_compute_quantile (buckets pre post : List HistogramCount)
    (b : HistogramCount) (total q : FP) :
    (FP.beq total (.ofInt 0) = true →
        compute_quantile buckets total q = .error .NoDataYetForP99Calculation) ∧
    (FP.beq total (.ofInt 0) = false →
      buckets = pre ++ b :: post →
      (∀ x ∈ pre, FP.fge x.count (FP.fceil (FP.mul q total)) = false) →
      FP.fge b.count (FP.fceil (FP.mul q total)) = true →
      (FP.beq (FP.sub b.count (lastCount pre (.ofInt 0))) (.ofInt 0) = true →
          compute_quantile buckets total q = .error .UnexpectedEmptyBucket) ∧
      (FP.beq (FP.sub b.count (lastCount pre (.ofInt 0))) (.ofInt 0) = false →
          compute_quantile buckets total q =
            .ok (FP.add (lastBound pre (.ofInt 0))
              (FP.mul
                (FP.div (FP.sub (FP.fceil (FP.mul q total)) (lastCount pre (.ofInt 0)))
                  (FP.sub b.count (lastCount pre (.ofInt 0))))
                (FP.sub b.less_than (lastBound pre (.ofInt 0))))))) := by
  constructor
  · intro h
    simp [compute_quantile, h]
  · intro hne hb hpre hgeb
    subst hb
    have hmain :
        compute_quantile (pre ++ b :: post) total q =
          quantileLoop (FP.fceil (FP.mul q total)) (b :: post)
            (lastCount pre (.ofInt 0)) (lastBound pre (.ofInt 0)) := by
      simp only [compute_quantile, hne, Bool.false_eq_true, if_false]
      exact quantileLoop_walk_pre _ pre _ _ _ hpre
    constructor
    · intro h0
      rw [hmain]
      simp only [quantileLoop, hgeb, if_true, h0]
    · intro h0
      rw [hmain]
      simp only [quantileLoop, hgeb, if_true, h0, Bool.false_eq_true, if_false]
      rw [FP.mul_comm]

theorem C1_compute_quantile_witness :
    compute_quantile [⟨.ofInt 10, .ofInt 7⟩] (.ofInt 0) quantile99 =
      .error .NoDataYetForP99Calculation ∧
    compute_quantile [⟨.ofInt 10, .ofInt 0⟩, ⟨.ofInt 100, .ofInt 5⟩] (.ofInt 5) quantile99 =
      .ok (.fin ⟨500, 5⟩) := by
  constructor
  · exact (C1_compute_quantile [⟨.ofInt 10, .ofInt 7⟩] [] [] ⟨.ofInt 10, .ofInt 7⟩
      (.ofInt 0) quantile99).1 (by decide)
  · have h := ((C1_compute_quantile [⟨.ofInt 10, .ofInt 0⟩, ⟨.ofInt 100, .ofInt 5⟩]
      [⟨.ofInt 10, .ofInt 0⟩] [] ⟨.ofInt 100, .ofInt 5⟩ (.ofInt 5) quantile99).2
      (by decide) rfl (by decide) (by decide)).2 (by decide)
    rw [h]
    decide

/-- C2: the per-interval health check reports a validator unhealthy
exactly when the interval p99 computed from the histogram diff exceeds the
400 ms threshold `PROXY_LATENCY_P99_THRESHOLD` (in particular when it is
+infinity, which exceeds any finite threshold); and on spec scenario 5
(previous buckets `[(10,100),(100,150),(+inf,200)]`, current
`[(10,100),(100,155),(+inf,260)]`) the diff count is 60, the target is
`ceil(0.99 * 60) = 60`, the computed p99 is +infinity, and the validator is
reported unhealthy. -/
theorem C2_validators_healthy :
    (∀ prev cur diffv, diff_histograms prev cur = .ok diffv →
        2 ≤ diffv.buckets.length →
        (validatorHealthy prev cur = some .unhealthy ↔
          ∃ p99, compute_quantile diffv.buckets diffv.count quantile99 = .ok p99 ∧
            FP.fgt p99 PROXY_LATENCY_P99_THRESHOLD = true)) ∧
    diff_histograms benchPrevSnapshot benchCurSnapshot = .ok benchDiffSnapshot ∧
    benchDiffSnapshot.count = .ofInt 60 ∧
    FP.fceil (FP.mul quantile99 benchDiffSnapshot.count) = .ofInt 60 ∧
    compute_quantile benchDiffSnapshot.buckets benchDiffSnapshot.count quantile99 = .ok .inf ∧
    validatorHealthy benchPrevSnapshot benchCurSnapshot = some .unhealthy := by
  refine ⟨?_, by decide, by decide, by decide, by decide, by decide⟩
  intro prev cur diffv hd hlen
  have hnl : ¬ diffv.buckets.length < 2 := Nat.not_lt.mpr hlen
  have hv : validatorHealthy prev cur =
      (match compute_quantile diffv.buckets diffv.count quantile99 with
        | .error .NoDataYetForP99Calculation => some .skip
        | .error e => some (.errorOut e)
        | .ok p99 =>
            if diffv.buckets.length < 2 then none
            else if FP.fgt p99 PROXY_LATENCY_P99_THRESHOLD then some .unhealthy
            else some .healthy) := by
    unfold validatorHealthy
    rw [hd]
  rw [hv]
  cases hcq : compute_quantile diffv.buckets diffv.count quantile99 with
  | error e => cases e <;> simp
  | ok p99 =>
      by_cases hgt : FP.fgt p99 PROXY_LATENCY_P99_THRESHOLD = true
      · simp [hnl, hgt]
      · simp only [Bool.not_eq_true] at hgt
        simp [hnl, hgt]

theorem C2_validators_healthy_witness :
    validatorHealthy benchPrevSnapshot benchCurSnapshot = some .unhealthy ↔
      ∃ p99, compute_quantile benchDiffSnapshot.buckets benchDiffSnapshot.count quantile99 =
          .ok p99 ∧
        FP.fgt p99 PROXY_LATENCY_P99_THRESHOLD = true :=
  C2_validators_healthy.1 benchPrevSnapshot benchCurSnapshot benchDiffSnapshot
    (by decide) (by decide)

theorem fle_zero_fmax_zero (x : FP) : FP.fle (.ofInt 0) (FP.fmax x (.ofInt 0)) = true := by
  cases x with
  | nan => decide
  | inf => decide
  | ninf => decide
  | fin a =>
      show FP.fle (.ofInt 0) (if FP.flt (.fin a) (.ofInt 0) then (.ofInt 0) else (.fin a)) = true
      by_cases h : FP.flt (.fin a) (.ofInt 0) = true
      · rw [if_pos h]; decide
      · rw [if_neg (by simp [h])]
        simp only [FP.flt, Frac.blt, FP.ofInt, Frac.ofInt, decide_eq_true_eq] at h
        simp only [FP.fle, FP.flt, FP.beq, Frac.blt, Frac.beq, FP.ofInt, Frac.ofInt,
          Bool.or_eq_true, decide_eq_true_eq, beq_iff_eq]
        omega

theorem diffBuckets_ok_nonneg :
    ∀ (ps cs r : List HistogramCount), diffBuckets ps cs = .ok r →
      ∀ b ∈ r, FP.fle (.ofInt 0) b.count = true := by
  intro ps
  induction ps with
  | nil =>
      intro cs r h b hb
      cases cs <;> simp [diffBuckets] at h <;> subst h <;> simp at hb
  | cons p pt ih =>
      intro cs r h b hb
      cases cs with
      | nil =>
          simp [diffBuckets] at h
          subst h
          simp at hb
      | cons c ct =>
          unfold diffBuckets at h
          by_cases hbad :
              FP.fgt (FP.fabs (FP.sub p.less_than c.less_than)) f64_EPSILON = true
          · rw [if_pos hbad] at h
            cases h
          · rw [if_neg (by simp [hbad])] at h
            cases hrec : diffBuckets pt ct with
            | error e => rw [hrec] at h; cases h
            | ok rest =>
                rw [hrec] at h
                cases h
                rcases List.mem_cons.mp hb with hb | hb
                · subst hb
                  exact fle_zero_fmax_zero _
                · exact ih ct rest hrec b hb

theorem diffBuckets_first_mismatch :
    ∀ (p1 c1 : List HistogramCount) (pb cb : HistogramCount) (p2 c2 : List HistogramCount),
      p1.length = c1.length →
      (∀ i pi ci, p1.get? i = some pi → c1.get? i = some ci →
         FP.fgt (FP.fabs (FP.sub pi.less_than ci.less_than)) f64_EPSILON = false) →
      FP.fgt (FP.fabs (FP.sub pb.less_than cb.less_than)) f64_EPSILON = true →
      diffBuckets (p1 ++ pb :: p2) (c1 ++ cb :: c2) =
        .error (.BucketBoundariesDoNotMatch pb.less_than cb.less_than) := by
  intro p1
  induction p1 with
  | nil =>
      intro c1 pb cb p2 c2 hlen hok hbad
      have hc : c1 = [] := List.length_eq_zero.mp hlen.symm
      subst hc
      simp [diffBuckets, hbad]
  | cons p pt ih =>
      intro c1 pb cb p2 c2 hlen hok hbad
      cases c1 with
      | nil => simp at hlen
      | cons c ct =>
          have h0 : FP.fgt (FP.fabs (FP.sub p.less_than c.less_than)) f64_EPSILON = false :=
            hok 0 p c rfl rfl
          have hok' : ∀ i pi ci, pt.get? i = some pi → ct.get? i = some ci →
              FP.fgt (FP.fabs (FP.sub pi.less_than ci.less_than)) f64_EPSILON = false :=
            fun i pi ci hpi hci => hok (i + 1) pi ci hpi hci
          have hlen' : pt.length = ct.length := by simpa using hlen
          have hrec := ih ct pb cb p2 c2 hlen' hok' hbad
          simp only [List.cons_append, diffBuckets, h0, Bool.false_eq_true, if_false]
          rw [show diffBuckets (pt.append (pb :: p2)) (ct.append (cb :: c2)) =
              Except.error (BenchmarkError.BucketBoundariesDoNotMatch pb.less_than cb.less_than)
            from hrec]

theorem sub_fin_nonneg (qp qc : Frac) (h : FP.flt (.fin qc) (.fin qp) = false) :
    FP.fle (.ofInt 0) (FP.sub (.fin qc) (.fin qp)) = true := by
  simp only [FP.flt, Frac.blt, decide_eq_false_iff_not, not_lt] at h
  simp only [FP.sub, FP.add, FP.neg, Frac.add, Frac.neg, FP.fle, FP.flt, FP.beq,
    Frac.blt, Frac.beq, FP.ofInt, Frac.ofInt, Bool.or_eq_true, decide_eq_true_eq, beq_iff_eq,
    neg_mul]
  omega

/-- C3 (amended): `diff_histograms` returns `HistogramCountMismatch` when
the current total count is below the previous one, and
`BucketBoundariesDoNotMatch` at the first pair of corresponding boundaries
differing by more than `f64::EPSILON`; a successful diff has non-negative
bucket counts, a non-negative total count whenever both snapshot counts are
finite, and a `sum` equal to `current.sum - previous.sum` (which the code
does not guard, so it can be negative). -/
theorem C3_diff_histograms_amended (prev cur : HistogramSnapshot) :
    (FP.flt cur.count prev.count = true →
        diff_histograms prev cur = .error .HistogramCountMismatch) ∧
    (∀ p1 pb p2 c1 cb c2,
        FP.flt cur.count prev.count = false →
        prev.buckets = p1 ++ pb :: p2 → cur.buckets = c1 ++ cb :: c2 →
        p1.length = c1.length →
        (∀ i pi ci, p1.get? i = some pi → c1.get? i = some ci →
           FP.fgt (FP.fabs (FP.sub pi.less_than ci.less_than)) f64_EPSILON = false) →
        FP.fgt (FP.fabs (FP.sub pb.less_than cb.less_than)) f64_EPSILON = true →
        diff_histograms prev cur = .error (.BucketBoundariesDoNotMatch pb.less_than cb.less_than)) ∧
    (∀ r, diff_histograms prev cur = .ok r →
        r.count = FP.sub cur.count prev.count ∧
        r.sum = FP.sub cur.sum prev.sum ∧
        (∀ b ∈ r.buckets, FP.fle (.ofInt 0) b.count = true) ∧
        (∀ qp qc, prev.count = .fin qp → cur.count = .fin qc →
            FP.fle (.ofInt 0) r.count = true)) := by
  refine ⟨?_, ?_, ?_⟩
  · intro h
    simp [diff_histograms, h]
  · intro p1 pb p2 c1 cb c2 hflt hp hc hlen hok hbad
    unfold diff_histograms
    rw [hflt]
    rw [hp, hc, diffBuckets_first_mismatch p1 c1 pb cb p2 c2 hlen hok hbad]
    simp
  · intro r h
    unfold diff_histograms at h
    cases hflt : FP.flt cur.count prev.count with
    | true => rw [hflt] at h; cases h
    | false =>
        rw [hflt] at h
        cases hdb : diffBuckets prev.buckets cur.buckets with
        | error e => rw [hdb] at h; cases h
        | ok bd =>
            rw [hdb] at h
            cases h
            refine ⟨rfl, rfl, diffBuckets_ok_nonneg _ _ _ hdb, ?_⟩
            intro qp qc hpc hcc
            simp only
            rw [hpc, hcc]
            rw [hpc, hcc] at hflt
            exact sub_fin_nonneg qp qc hflt

theorem C3_diff_histograms_counterexample :
    diff_histograms ⟨[⟨.ofInt 10, .ofInt 0⟩], .ofInt 0, .ofInt 5⟩
        ⟨[⟨.ofInt 10, .ofInt 0⟩], .ofInt 0, .ofInt 3⟩ =
      .ok ⟨[⟨.ofInt 10, .ofInt 0⟩], .ofInt 0, .fin ⟨-2, 1⟩⟩ ∧
    FP.fle (.ofInt 0) (.fin ⟨-2, 1⟩) = false := by decide

theorem C3_diff_histograms_amended_witness :
    diff_histograms ⟨[⟨.ofInt 10, .ofInt 0⟩], .ofInt 5, .ofInt 0⟩
        ⟨[⟨.ofInt 10, .ofInt 0⟩], .ofInt 3, .ofInt 0⟩ = .error .HistogramCountMismatch ∧
    diff_histograms ⟨[⟨.ofInt 10, .ofInt 0⟩], .ofInt 0, .ofInt 0⟩
        ⟨[⟨.ofInt 999, .ofInt 0⟩], .ofInt 0, .ofInt 0⟩ =
      .error (.BucketBoundariesDoNotMatch (.ofInt 10) (.ofInt 999)) ∧
    (∀ b ∈ benchDiffSnapshot.buckets, FP.fle (.ofInt 0) b.count = true) ∧
    FP.fle (.ofInt 0) benchDiffSnapshot.count = true := by
  refine ⟨?_, ?_, ?_, ?_⟩
  · exact (C3_diff_histograms_amended _ _).1 (by decide)
  · exact (C3_diff_histograms_amended _ _).2.1 [] ⟨.ofInt 10, .ofInt 0⟩ [] []
      ⟨.ofInt 999, .ofInt 0⟩ [] (by decide) rfl rfl rfl
      (by intro i pi ci h1 _; simp at h1) (by decide)
  · exact ((C3_diff_histograms_amended benchPrevSnapshot benchCurSnapshot).2.2
      benchDiffSnapshot (by decide)).2.2.1
  · exact ((C3_diff_histograms_amended benchPrevSnapshot benchCurSnapshot).2.2
      benchDiffSnapshot (by decide)).2.2.2 ⟨200, 1⟩ ⟨260, 1⟩ (by decide) (by decide)

theorem bpsSharesGo_length (init : ℕ) : ∀ (k rem : ℕ), (bpsSharesGo init rem k).length = k := by
  intro k
  induction k with
  | zero => intro rem; rfl
  | succ k ih =>
      intro rem
      by_cases h : 0 < rem <;> simp [bpsSharesGo, h, ih]

theorem bpsSharesGo_get (init : ℕ) : ∀ (k rem j : ℕ), j < k →
    (bpsSharesGo init rem k).get? j = some (init + if j < rem then 1 else 0) := by
  intro k
  induction k with
  | zero => intro rem j h; omega
  | succ k ih =>
      intro rem j hj
      by_cases hrem : 0 < rem
      · simp only [bpsSharesGo, if_pos hrem]
        cases j with
        | zero => simp [hrem]
        | succ j =>
            simp only [List.get?_cons_succ]
            rw [ih (rem - 1) j (by omega)]
            have he : (if j < rem - 1 then 1 else 0) = (if j + 1 < rem then (1 : ℕ) else 0) := by
              by_cases h : j < rem - 1
              · rw [if_pos h, if_pos (by omega)]
              · rw [if_neg h, if_neg (by omega)]
            rw [he]
      · have hrem0 : rem = 0 := by omega
        subst hrem0
        simp only [bpsSharesGo, if_neg hrem]
        cases j with
        | zero => simp
        | succ j =>
            simp only [List.get?_cons_succ]
            rw [ih 0 j (by omega)]
            simp

theorem bpsSharesGo_sum (init : ℕ) : ∀ (k rem : ℕ),
    (bpsSharesGo init rem k).sum = k * init + min rem k := by
  intro k
  induction k with
  | zero => intro rem; simp [bpsSharesGo]
  | succ k ih =>
      intro rem
      by_cases h : 0 < rem
      · simp only [bpsSharesGo, if_pos h, List.sum_cons, ih (rem - 1), Nat.succ_mul]
        omega
      · simp only [bpsSharesGo, if_neg h, List.sum_cons, ih rem, Nat.succ_mul]
        omega

theorem bpsShares_length (bps n : ℕ) : (bpsShares bps n).length = n :=
  bpsSharesGo_length _ _ _

theorem bpsShares_sum (bps n : ℕ) (hn : 0 < n) : (bpsShares bps n).sum = bps := by
  unfold bpsShares
  rw [bpsSharesGo_sum]
  have h1 : bps % n < n := Nat.mod_lt _ hn
  have h2 := Nat.div_add_mod bps n
  omega

/-- C5: `run_benchmark` assigns each of the `num_chain_groups` chain
groups a share of `floor(bps / num_chain_groups)`, the first
`bps mod num_chain_groups` groups receiving one extra unit, and the shares
sum exactly to `bps`. -/
theorem C5_bps_shares (bps num_chain_groups : ℕ) (hn : 0 < num_chain_groups) :
    (bpsShares bps num_chain_groups).length = num_chain_groups ∧
    (∀ i, i < num_chain_groups →
      (bpsShares bps num_chain_groups).get? i =
        some (bps / num_chain_groups +
          if i < bps % num_chain_groups then 1 else 0)) ∧
    (bpsShares bps num_chain_groups).sum = bps := by
  refine ⟨bpsShares_length _ _, ?_, bpsShares_sum _ _ hn⟩
  intro i hi
  exact bpsSharesGo_get _ _ _ _ hi

theorem C5_bps_shares_witness :
    (bpsShares 10 4).length = 4 ∧
    (bpsShares 10 4).get? 0 = some 3 ∧
    (bpsShares 10 4).sum = 10 := by
  refine ⟨(C5_bps_shares 10 4 (by decide)).1, ?_, (C5_bps_shares 10 4 (by decide)).2.2⟩
  have h := (C5_bps_shares 10 4 (by decide)).2.1 0 (by decide)
  rw [h]
  decide

theorem benchInv_init (shares : List ℕ) : benchInv shares (initBench shares.length) := by
  constructor
  · simp [initBench]
  · intro g gs share hg _
    have hgs : gs = initGroup := List.eq_of_mem_replicate (List.get?_mem hg)
    subst hgs
    refine ⟨Nat.zero_le _, fun _ => Or.inr rfl, ?_, fun _ => Nat.zero_le _⟩
    intro h
    simp [initGroup] at h

theorem benchStep_inv (shares : List ℕ) (st st' : List GroupState)
    (hstep : BenchStep shares st st') (hinv : benchInv shares st) : benchInv shares st' := by
  obtain ⟨hlen, hgs⟩ := hinv
  cases hstep with
  | submit g _ gs hget hw hf =>
      refine ⟨by simpa using hlen, ?_⟩
      intro g' gs' share hg' hs'
      by_cases hgg : g' = g
      · subst hgg
        obtain ⟨hlt, -⟩ := List.get?_eq_some.mp hget
        rw [List.get?_set_eq_of_lt _ hlt] at hg'
        obtain rfl := (Option.some.inj hg').symm
        obtain ⟨h1, h2, h3, h4⟩ := hgs g' gs share hget hs'
        rw [hf] at h1
        simp only [if_false, Bool.false_eq_true, Nat.add_zero] at h1
        have hcnt := h2 hw
        refine ⟨?_, ?_, ?_, ?_⟩
        · simp only [if_true]
          omega
        · intro _
          exact hcnt
        · intro _
          exact hcnt
        · intro h
          simp at h
      · rw [List.get?_set_ne _ _ (fun h => hgg h.symm)] at hg'
        exact hgs g' gs' share hg' hs'
  | incr g _ gs share0 hget hshare hf =>
      refine ⟨by simpa using hlen, ?_⟩
      intro g' gs' share hg' hs'
      by_cases hgg : g' = g
      · subst hgg
        obtain ⟨hlt, -⟩ := List.get?_eq_some.mp hget
        rw [List.get?_set_eq_of_lt _ hlt] at hg'
        obtain rfl := (Option.some.inj hg').symm
        rw [hshare] at hs'
        obtain rfl := (Option.some.inj hs').symm
        obtain ⟨h1, h2, h3, h4⟩ := hgs g' gs _ hget hshare
        rw [hf] at h1
        simp only [if_true, Bool.true_eq_false] at h1
        have hcnt := h3 hf
        refine ⟨?_, ?_, ?_, ?_⟩
        · simp only [if_false, Bool.false_eq_true, Nat.add_zero]
          omega
        · intro hwf
          simp only [decide_eq_false_iff_not, not_le] at hwf
          exact Or.inl hwf
        · intro h
          simp at h
        · intro _
          dsimp only
          omega
      · rw [List.get?_set_ne _ _ (fun h => hgg h.symm)] at hg'
        exact hgs g' gs' share hg' hs'
  | tick _ =>
      refine ⟨by simpa using hlen, ?_⟩
      intro g' gs' share hg' hs'
      rw [List.get?_map] at hg'
      cases hg0 : st.get? g' with
      | none => rw [hg0] at hg'; cases hg'
      | some gs0 =>
          rw [hg0] at hg'
          obtain rfl := (Option.some.inj hg').symm
          exact ⟨Nat.zero_le _, fun _ => Or.inr rfl, fun _ => Or.inr rfl, fun _ => Nat.zero_le _⟩

theorem benchReachable_inv (shares : List ℕ) (st : List GroupState)
    (h : benchReachable shares (initBench shares.length) st) : benchInv shares st := by
  induction h with
  | refl => exact benchInv_init shares
  | tail _ hstep ih => exact benchStep_inv _ _ _ hstep ih

theorem groupInv_submitted_le (share : ℕ) (gs : GroupState) (h : groupInv share gs) :
    gs.submitted ≤ share + 1 := by
  obtain ⟨h1, h2, h3, h4⟩ := h
  cases hf : gs.inFlight with
  | false =>
      rw [hf] at h1
      simp only [Bool.false_eq_true, if_false, Nat.add_zero] at h1
      have := h4 hf
      omega
  | true =>
      rw [hf] at h1
      simp only [if_true] at h1
      rcases h3 hf with h | h <;> omega

theorem sum_submitted_le : ∀ (shares : List ℕ) (st : List GroupState),
    st.length = shares.length →
    (∀ g gs share, st.get? g = some gs → shares.get? g = some share →
        gs.submitted ≤ share + 1) →
    (st.map GroupState.submitted).sum ≤ shares.sum + shares.length := by
  intro shares
  induction shares with
  | nil =>
      intro st h _
      have : st = [] := List.length_eq_zero.mp h
      subst this
      simp
  | cons s srest ih =>
      intro st hlen hb
      cases st with
      | nil => simp at hlen
      | cons g gt =>
          have h0 : g.submitted ≤ s + 1 := hb 0 g s rfl rfl
          have hrest := ih gt (by simpa using hlen)
            (fun i gs share h1 h2 => hb (i + 1) gs share h1 h2)
          simp only [List.map_cons, List.sum_cons, List.length_cons]
          omega

/-- C4: in the interleaving model of the BPS pacing loop (producers
submit, bump their group's counter, and park on the notifier once the
counter reaches their `bps_share`; the pacing tick swaps all counters to
zero and releases every parked producer), every state reachable from a
window start has at most `bps + num_chain_groups` blocks submitted in the
current window: each group can overshoot its share by at most the one block
in flight when the counter is swapped. -/
theorem C4_bps_pacing (bps num_chain_groups : ℕ) (hn : 0 < num_chain_groups)
    (st : List GroupState)
    (h : benchReachable (bpsShares bps num_chain_groups)
        (initBench num_chain_groups) st) :
    (st.map GroupState.submitted).sum ≤ bps + num_chain_groups := by
  have hlen := bpsShares_length bps num_chain_groups
  have hinv : benchInv (bpsShares bps num_chain_groups) st := by
    apply benchReachable_inv
    rw [hlen]
    exact h
  have hsum := sum_submitted_le (bpsShares bps num_chain_groups) st hinv.1
    (fun g gs share h1 h2 => groupInv_submitted_le share gs (hinv.2 g gs share h1 h2))
  rw [bpsShares_sum bps num_chain_groups hn, hlen] at hsum
  exact hsum

theorem C4_bps_pacing_witness :
    ((initBench 4).map GroupState.submitted).sum ≤ 10 + 4 :=
  C4_bps_pacing 10 4 (by decide) (initBench 4) Relation.ReflTransGen.refl

theorem rcbdLoop_ok_spec (store : ℕ → Option BlockM) :
    ∀ (k : ℕ) (h? : Option ℕ) (l : List BlockM), rcbdLoop store k h? = .ok l →
      l.length ≤ k ∧ WalkOk store h? l ∧
      (l.length < k → (l = [] ∧ h? = none) ∨
        (∃ b, l.getLast? = some b ∧ b.previous_block_hash = none)) := by
  intro k
  induction k with
  | zero =>
      intro h? l h
      cases h
      exact ⟨Nat.le_refl 0, WalkOk.nil _, fun hl => absurd hl (by omega)⟩
  | succ k ih =>
      intro h? l h
      cases h? with
      | none =>
          cases h
          exact ⟨Nat.zero_le _, WalkOk.nil _, fun _ => Or.inl ⟨rfl, rfl⟩⟩
      | some hh =>
          unfold rcbdLoop at h
          cases hs : store hh with
          | none => rw [hs] at h; cases h
          | some v =>
              rw [hs] at h
              dsimp only at h
              cases hr : rcbdLoop store k v.previous_block_hash with
              | error e => rw [hr] at h; cases h
              | ok rest =>
                  rw [hr] at h
                  cases h
                  obtain ⟨hlen, hwalk, hstop⟩ := ih v.previous_block_hash rest hr
                  refine ⟨by simpa using Nat.succ_le_succ hlen,
                    WalkOk.cons hh v rest hs hwalk, ?_⟩
                  intro hl
                  have hrl : rest.length < k := by simpa using hl
                  rcases hstop hrl with ⟨hre, hpn⟩ | ⟨b, hb1, hb2⟩
                  · subst hre
                    exact Or.inr ⟨v, by simp, hpn⟩
                  · refine Or.inr ⟨b, ?_, hb2⟩
                    cases rest with
                    | nil => simp at hb1
                    | cons r rt => rw [List.getLast?_cons_cons]; exact hb1

theorem rcbdLoop_error_spec (store : ℕ → Option BlockM) :
    ∀ (k : ℕ) (h? : Option ℕ) (e : ℕ), rcbdLoop store k h? = .error e → store e = none := by
  intro k
  induction k with
  | zero => intro h? e h; cases h
  | succ k ih =>
      intro h? e h
      cases h? with
      | none => cases h
      | some hh =>
          unfold rcbdLoop at h
          cases hs : store hh with
          | none =>
              rw [hs] at h
              cases h
              exact hs
          | some v =>
              rw [hs] at h
              dsimp only at h
              cases hr : rcbdLoop store k v.previous_block_hash with
              | error e' =>
                  rw [hr] at h
                  cases h
                  exact ih _ _ hr
              | ok rest => rw [hr] at h; cases h

theorem walkOk_links (store : ℕ → Option BlockM) (h? : Option ℕ) (l : List BlockM)
    (hw : WalkOk store h? l) :
    ∀ i b b', l.get? i = some b → l.get? (i + 1) = some b' →
      ∃ h', b.previous_block_hash = some h' ∧ store h' = some b' := by
  induction hw with
  | nil => intro i b b' h1 _; simp at h1
  | cons h v rest hsv hwrest ih =>
      intro i b b' h1 h2
      cases i with
      | zero =>
          obtain rfl : v = b := Option.some.inj h1
          cases rest with
          | nil => simp at h2
          | cons r rt =>
              obtain rfl : r = b' := Option.some.inj h2
              rcases hq : v.previous_block_hash with - | h'
              · rw [hq] at hwrest
                cases hwrest
              · rw [hq] at hwrest
                cases hwrest with
                | cons h'' value rest' hsr hw' => exact ⟨h', rfl, hsr⟩
      | succ i => exact ih i b b' (by simpa using h1) (by simpa using h2)

/-- C6: a successful `read_confirmed_blocks_downward(from, limit)`
returns at most `limit` blocks; the first is the block stored under the
starting hash, each later one is the block stored under its predecessor's
previous-block hash, and the walk only stops short of `limit` at a block
with no previous hash; when a certificate along the walk cannot be read
the call surfaces that error (it never silently truncates). -/
theorem C6_read_confirmed_blocks_downward (store : ℕ → Option BlockM) (start limit : ℕ) :
    (∀ l, read_confirmed_blocks_downward store start limit = .ok l →
        l.length ≤ limit ∧
        (0 < limit → l.head? = store start) ∧
        WalkOk store (some start) l ∧
        (∀ i b b', l.get? i = some b → l.get? (i + 1) = some b' →
            ∃ h', b.previous_block_hash = some h' ∧ store h' = some b') ∧
        (l.length < limit → ∃ b, l.getLast? = some b ∧ b.previous_block_hash = none)) ∧
    (∀ e, read_confirmed_blocks_downward store start limit = .error e → store e = none) := by
  constructor
  · intro l h
    obtain ⟨hlen, hwalk, hstop⟩ := rcbdLoop_ok_spec store limit (some start) l h
    refine ⟨hlen, ?_, hwalk, walkOk_links store _ l hwalk, ?_⟩
    · intro hlim
      cases hwalk with
      | nil =>
          rcases hstop (by simpa using hlim) with ⟨-, hc⟩ | ⟨b, hb, -⟩
          · cases hc
          · simp at hb
      | cons hh v rest hs hw =>
          simpa using hs.symm
    · intro hl
      rcases hstop hl with ⟨-, hc⟩ | h2
      · cases hc
      · exact h2
  · intro e h
    exact rcbdLoop_error_spec store limit (some start) e h

theorem C6_read_confirmed_blocks_downward_witness :
    ([(⟨some 1, 100⟩ : BlockM), ⟨none, 101⟩].length ≤ 5) ∧
    (∃ b, [(⟨some 1, 100⟩ : BlockM), ⟨none, 101⟩].getLast? = some b ∧
      b.previous_block_hash = none) := by
  have h := (C6_read_confirmed_blocks_downward
      (fun h => if h = 0 then some ⟨some 1, 100⟩ else if h = 1 then some ⟨none, 101⟩ else none)
      0 5).1 [⟨some 1, 100⟩, ⟨none, 101⟩] (by decide)
  exact ⟨h.1, h.2.2.2.2 (by decide)⟩

/-- C7: a validator with fault type `OfflineWithInfo` answers
`handle_chain_info_query` exactly as an honest validator, but on
`handle_block_proposal` it never invokes its worker (the state is returned
unchanged, for every worker) and answers with the "offline" client-I/O
error, which the spec's driver table treats as a silent validator. -/
theorem C7_offline_with_info {σ R A : Type}
    (worker_q worker_p : σ → (Except NodeError (R × A)) × σ) (s : σ) :
    do_handle_chain_info_query .OfflineWithInfo worker_q s =
      do_handle_chain_info_query .Honest worker_q s ∧
    do_handle_block_proposal .OfflineWithInfo worker_p s =
      some (.error (.ClientIoError "offline"), s) ∧
    driverTreatsAsSilent (.ClientIoError "offline") = true :=
  ⟨rfl, rfl, rfl⟩

/-- C9: for every fault type (and certificate kind), whenever the
wrapped worker is actually invoked for a block proposal or a certificate
and returns a `BlobsNotFound` error, the local validator client forwards
that exact error (and the worker's resulting state) to the caller instead
of the fault-specific substitute response. -/
theorem C9_blobs_not_found_passthrough {σ R A : Type} (ft : FaultType)
    (kind : CertificateKind) (worker_p : σ → (Except NodeError (R × A)) × σ)
    (worker_c : σ → (Except NodeError R) × σ) (s s' : σ) (ids : List ℕ) :
    (proposalInvokesWorker ft = true →
        worker_p s = (.error (.BlobsNotFound ids), s') →
        do_handle_block_proposal ft worker_p s = some (.error (.BlobsNotFound ids), s')) ∧
    (certificateInvokesWorker ft kind = true →
        worker_c s = (.error (.BlobsNotFound ids), s') →
        do_handle_certificate_internal ft kind worker_c s =
          some (.error (.BlobsNotFound ids), s')) := by
  constructor
  · intro hi hw
    cases ft <;>
      simp_all [do_handle_block_proposal, handle_block_proposal, proposalInvokesWorker,
        Except.map]
  · intro hi hw
    cases ft <;> cases kind <;>
      simp_all [do_handle_certificate_internal, handle_certificate, certificateInvokesWorker]

theorem C9_blobs_not_found_passthrough_witness :
    proposalInvokesWorker .Honest = true ∧
    certificateInvokesWorker .Honest .Confirmed = true ∧
    do_handle_block_proposal (σ := ℕ) (R := ℕ) (A := ℕ) .Honest
        (fun s => (.error (.BlobsNotFound [5]), s + 1)) 0 =
      some (.error (.BlobsNotFound [5]), 1) ∧
    do_handle_certificate_internal (σ := ℕ) (R := ℕ) .Honest .Confirmed
        (fun s => (.error (.BlobsNotFound [5]), s + 1)) 0 =
      some (.error (.BlobsNotFound [5]), 1) := by
  refine ⟨rfl, rfl, ?_, ?_⟩
  · exact (C9_blobs_not_found_passthrough (σ := ℕ) (R := ℕ) (A := ℕ) .Honest .Confirmed
      (fun s => (.error (.BlobsNotFound [5]), s + 1))
      (fun s => (.error (.BlobsNotFound [5]), s + 1)) 0 1 [5]).1 rfl rfl
  · exact (C9_blobs_not_found_passthrough (σ := ℕ) (R := ℕ) (A := ℕ) .Honest .Confirmed
      (fun s => (.error (.BlobsNotFound [5]), s + 1))
      (fun s => (.error (.BlobsNotFound [5]), s + 1)) 0 1 [5]).2 rfl rfl

/-- C10: `add_root_chain` with requested balance `b` creates the chain
with balance zero in the storage of every `Malicious` validator and with
balance `b` everywhere else (other validators and all chain-client
storages); all other description fields (origin, ownership, epochs,
application permissions, timestamp) are identical across storages. -/
theorem C10_add_root_chain (index public_key balance : ℕ)
    (validators : List FaultType) (numClients : ℕ) :
    (add_root_chain_validator_descriptions validators
        (add_root_chain_description index public_key balance)).length = validators.length ∧
    (∀ g ft vd, validators.get? g = some ft →
        (add_root_chain_validator_descriptions validators
            (add_root_chain_description index public_key balance)).get? g = some vd →
        vd.config.balance = (if ft = .Malicious then 0 else balance) ∧
        vd.origin = (add_root_chain_description index public_key balance).origin ∧
        vd.config.ownership =
          (add_root_chain_description index public_key balance).config.ownership ∧
        vd.config.epoch = (add_root_chain_description index public_key balance).config.epoch ∧
        vd.config.min_active_epoch =
          (add_root_chain_description index public_key balance).config.min_active_epoch ∧
        vd.config.max_active_epoch =
          (add_root_chain_description index public_key balance).config.max_active_epoch ∧
        vd.config.application_permissions =
          (add_root_chain_description index public_key balance).config.application_permissions ∧
        vd.timestamp = (add_root_chain_description index public_key balance).timestamp) ∧
    (∀ c ∈ add_root_chain_client_descriptions numClients
        (add_root_chain_description index public_key balance),
      c = add_root_chain_description index public_key balance) := by
  refine ⟨by simp [add_root_chain_validator_descriptions], ?_, ?_⟩
  · intro g ft vd hg hvd
    rw [add_root_chain_validator_descriptions, List.get?_map, hg] at hvd
    obtain rfl := (Option.some.inj hvd).symm
    by_cases hm : ft = .Malicious
    · subst hm
      simp [validatorCreatedDescription, add_root_chain_description]
    · simp [validatorCreatedDescription, hm, add_root_chain_description]
  · intro c hc
    exact List.eq_of_mem_replicate hc

theorem C10_add_root_chain_witness :
    (validatorCreatedDescription .Malicious
        (add_root_chain_description 0 7 42)).config.balance = 0 ∧
    (validatorCreatedDescription .Honest
        (add_root_chain_description 0 7 42)).config.balance = 42 ∧
    ∀ c ∈ add_root_chain_client_descriptions 1 (add_root_chain_description 0 7 42),
      c = add_root_chain_description 0 7 42 := by
  have hm := (C10_add_root_chain 0 7 42 [.Malicious, .Honest] 1).2.1 0 .Malicious
    (validatorCreatedDescription .Malicious (add_root_chain_description 0 7 42))
    (by decide) (by decide)
  have hh := (C10_add_root_chain 0 7 42 [.Malicious, .Honest] 1).2.1 1 .Honest
    (validatorCreatedDescription .Honest (add_root_chain_description 0 7 42))
    (by decide) (by decide)
  refine ⟨?_, ?_, (C10_add_root_chain 0 7 42 [.Malicious, .Honest] 1).2.2⟩
  · simpa using hm.1
  · simpa using hh.1

theorem except_bind_ok {α β ε : Type} (a : α) (g : α → Except ε β) :
    (Except.ok a >>= g) = g a := rfl

theorem except_bind_error {α β ε : Type} (e : ε) (g : α → Except ε β) :
    ((Except.error e : Except ε α) >>= g) = .error e := rfl

theorem except_mapM_nil {α β ε : Type} (f : α → Except ε β) :
    ([] : List α).mapM f = .ok [] := by
  rw [← List.mapM'_eq_mapM]; rfl

theorem except_mapM_cons {α β ε : Type} (f : α → Except ε β) (a : α) (l : List α) :
    (a :: l).mapM f = f a >>= fun b => l.mapM f >>= fun rest => pure (b :: rest) := by
  rw [← List.mapM'_eq_mapM, ← List.mapM'_eq_mapM]; rfl

theorem except_mapM_ok_spec {α β ε : Type} (f : α → Except ε β) :
    ∀ (l : List α) (r : List β), l.mapM f = .ok r →
      r.length = l.length ∧
      ∀ i a, l.get? i = some a → ∃ b, r.get? i = some b ∧ f a = .ok b := by
  intro l
  induction l with
  | nil =>
      intro r h
      rw [except_mapM_nil] at h
      cases h
      exact ⟨rfl, fun i a h1 => by simp at h1⟩
  | cons a t ih =>
      intro r h
      rw [except_mapM_cons] at h
      cases hfa : f a with
      | error e => rw [hfa, except_bind_error] at h; cases h
      | ok b =>
          rw [hfa, except_bind_ok] at h
          cases hmt : t.mapM f with
          | error e => rw [hmt, except_bind_error] at h; cases h
          | ok rest =>
              rw [hmt, except_bind_ok] at h
              cases h
              obtain ⟨hl, hg⟩ := ih rest hmt
              refine ⟨by simp [hl], ?_⟩
              intro i x hx
              cases i with
              | zero =>
                  obtain rfl := Option.some.inj hx
                  exact ⟨b, rfl, hfa⟩
              | succ i => simpa using hg i x (by simpa using hx)

theorem except_mapM_all_ok {α β ε : Type} (f : α → Except ε β) :
    ∀ (l : List α), (∀ a ∈ l, ∃ b, f a = .ok b) → ∃ r, l.mapM f = .ok r := by
  intro l
  induction l with
  | nil => exact fun _ => ⟨[], except_mapM_nil f⟩
  | cons a t ih =>
      intro h
      obtain ⟨b, hb⟩ := h a (by simp)
      obtain ⟨r, hr⟩ := ih (fun x hx => h x (by simp [hx]))
      refine ⟨b :: r, ?_⟩
      rw [except_mapM_cons, hb, except_bind_ok, hr, except_bind_ok]
      rfl

theorem shardConfigFor_ok_spec (pat host port : List Char) (mp : Option (List Char))
    (len i : ℕ) (c : ShardConfig)
    (h : shardConfigFor pat host port mp len i = .ok c) :
    c.host = replaceFirst host pat (formatPadded i len) ∧
    parseU16 (replaceFirst port pat (formatPadded i len)) = some c.port ∧
    (mp = none → c.metrics_port = none) ∧
    (∀ s, mp = some s →
      ∃ m, parseU16 (replaceFirst s pat (formatPadded i len)) = some m ∧
        c.metrics_port = some m) := by
  unfold shardConfigFor at h
  dsimp only at h
  cases hp : parseU16 (replaceFirst port pat (formatPadded i len)) with
  | none => rw [hp] at h; cases h
  | some p =>
      rw [hp] at h
      dsimp only at h
      cases mp with
      | none =>
          cases h
          exact ⟨rfl, rfl, fun _ => rfl, fun s hs => Option.noConfusion hs⟩
      | some s =>
          dsimp only at h
          cases hm : parseU16 (replaceFirst s pat (formatPadded i len)) with
          | none => rw [hm] at h; cases h
          | some m =>
              rw [hm] at h
              cases h
              refine ⟨rfl, rfl, fun he => Option.noConfusion he, ?_⟩
              intro s' hs'
              obtain rfl := Option.some.inj hs'
              exact ⟨m, hm, rfl⟩

theorem shardConfigFor_not_ok_of_parse_fail (pat host port : List Char)
    (mp : Option (List Char)) (len j : ℕ)
    (hfail : parseU16 (replaceFirst port pat (formatPadded j len)) = none ∨
      ∃ s, mp = some s ∧ parseU16 (replaceFirst s pat (formatPadded j len)) = none) :
    ∀ c, shardConfigFor pat host port mp len j ≠ .ok c := by
  intro c h
  obtain ⟨-, hport, -, hmp⟩ := shardConfigFor_ok_spec pat host port mp len j c h
  rcases hfail with hnone | ⟨s, rfl, hnone⟩
  · rw [hport] at hnone
    cases hnone
  · obtain ⟨m, hm, -⟩ := hmp s rfl
    rw [hm] at hnone
    cases hnone

/-- C8: when `num_shards` (a string of `D` characters) parses as a
`NonZeroU16` value `N`, `generate_shard_configs` produces exactly `N` shard
configs whose host and port templates have the first occurrence of the run
of `D` `%` characters replaced by the 1-based shard index zero-padded to
`D` digits, the substituted port strings parsed as integers; it errors when
`num_shards` does not parse, and it errors when some substituted port or
metrics-port string does not parse. -/
theorem C8_generate_shard_configs (num_shards host port : List Char)
    (metrics_port : Option (List Char)) (n : ℕ) :
    (parseNonZeroU16 num_shards = none →
        generate_shard_configs num_shards host port metrics_port = .error .numShardsParse) ∧
    (parseNonZeroU16 num_shards = some n →
      (∀ l, generate_shard_configs num_shards host port metrics_port = .ok l →
          l.length = n ∧
          ∀ i c, l.get? i = some c →
            c.host = replaceFirst host (List.replicate num_shards.length '%')
              (formatPadded (1 + i) num_shards.length) ∧
            parseU16 (replaceFirst port (List.replicate num_shards.length '%')
              (formatPadded (1 + i) num_shards.length)) = some c.port ∧
            (metrics_port = none → c.metrics_port = none) ∧
            (∀ s, metrics_port = some s →
              ∃ m, parseU16 (replaceFirst s (List.replicate num_shards.length '%')
                (formatPadded (1 + i) num_shards.length)) = some m ∧
                c.metrics_port = some m)) ∧
      ((∀ i ∈ List.range' 1 n, ∃ c,
          shardConfigFor (List.replicate num_shards.length '%') host port metrics_port
            num_shards.length i = .ok c) →
        ∃ l, generate_shard_configs num_shards host port metrics_port = .ok l) ∧
      (∀ j, 1 ≤ j → j ≤ n →
        (parseU16 (replaceFirst port (List.replicate num_shards.length '%')
            (formatPadded j num_shards.length)) = none ∨
          ∃ s, metrics_port = some s ∧
            parseU16 (replaceFirst s (List.replicate num_shards.length '%')
              (formatPadded j num_shards.length)) = none) →
        ∃ e, generate_shard_configs num_shards host port metrics_port = .error e)) := by
  constructor
  · intro h
    unfold generate_shard_configs
    rw [h]
  · intro hn
    refine ⟨?_, ?_, ?_⟩
    · intro l hl
      unfold generate_shard_configs at hl
      rw [hn] at hl
      dsimp only at hl
      obtain ⟨hlen, hget⟩ := except_mapM_ok_spec _ _ _ hl
      rw [List.length_range'] at hlen
      refine ⟨hlen, ?_⟩
      intro i c hc
      have hi : i < n := by
        obtain ⟨hlt, -⟩ := List.get?_eq_some.mp hc
        omega
      have hr : (List.range' 1 n).get? i = some (1 + i) := by
        rw [List.get?_range' 1 1 hi]
        simp
      obtain ⟨b, hb, hfb⟩ := hget i (1 + i) hr
      rw [hc] at hb
      obtain rfl := Option.some.inj hb
      exact shardConfigFor_ok_spec _ _ _ _ _ _ _ hfb
    · intro hall
      unfold generate_shard_configs
      rw [hn]
      dsimp only
      exact except_mapM_all_ok _ _ hall
    · intro j hj1 hjn hfail
      cases hg : generate_shard_configs num_shards host port metrics_port with
      | error e => exact ⟨e, rfl⟩
      | ok l =>
          exfalso
          unfold generate_shard_configs at hg
          rw [hn] at hg
          dsimp only at hg
          obtain ⟨-, hget⟩ := except_mapM_ok_spec _ _ _ hg
          have hr : (List.range' 1 n).get? (j - 1) = some (1 + (j - 1)) := by
            rw [List.get?_range' 1 1 (by omega)]
            simp
          obtain ⟨b, -, hfb⟩ := hget (j - 1) (1 + (j - 1)) hr
          have hj : 1 + (j - 1) = j := by omega
          rw [hj] at hfb
          exact shardConfigFor_not_ok_of_parse_fail _ _ _ _ _ _ hfail b hfb

theorem C8_generate_shard_configs_witness :
    ([(⟨"host01".toList, 1001, some 1101⟩ : ShardConfig),
      ⟨"host02".toList, 1002, some 1102⟩].length = 2) ∧
    parseU16 (replaceFirst "10%%".toList (List.replicate ("02".toList).length '%')
      (formatPadded 1 ("02".toList).length)) = some 1001 ∧
    (∃ e, generate_shard_configs "2".toList "host%%".toList "10%%".toList
        (some "11%%".toList) = .error e) := by
  have h := (C8_generate_shard_configs "02".toList "host%%".toList "10%%".toList
      (some "11%%".toList) 2).2 (by decide)
  have hspec := h.1 [⟨"host01".toList, 1001, some 1101⟩, ⟨"host02".toList, 1002, some 1102⟩]
    (by decide)
  refine ⟨hspec.1, ?_, ?_⟩
  · exact (hspec.2 0 ⟨"host01".toList, 1001, some 1101⟩ (by decide)).2.1
  · have h2 := (C8_generate_shard_configs "2".toList "host%%".toList "10%%".toList
      (some "11%%".toList) 2).2 (by decide)
    exact h2.2.2 1 (by decide) (by decide) (Or.inl (by decide))
